import Mathlib

/-!
Verification of the core functions of the bfn library (src/src/lib.rs):
the UUIDv7 timestamp decoder (uuid_to_ts), the HTML tag stripper
(strip_tags) and the domain-code recognizers (parse_disposal_code,
parse_recovery_code, parse_low_code, parse_env_code).

Strings are modelled as lists of characters.  The Rust regex pipeline of
strip_tags is embedded as deterministic left-to-right scanners that
implement exactly the leftmost, greedy matching the regex crate performs on
the source patterns.  The scanners use an explicit fuel argument equal to
the input length so that every definition is structurally recursive and
kernel-computable.
-/

namespace BFN

/-- The Unicode White_Space set: this is both what the Rust regex escape
for whitespace matches (Unicode mode, the default) and the set trimmed by
the trim method of str used in the source. -/
def isSpace (c : Char) : Bool :=
  c == ' ' || c == '\t' || c == '\n' || c == '\x0b' || c == '\x0c' || c == '\r' ||
  c == '\x85' || c == '\xa0' || c == '\u1680' ||
  (decide (0x2000 ≤ c.toNat) && decide (c.toNat ≤ 0x200a)) ||
  c == '\u2028' || c == '\u2029' || c == '\u202f' || c == '\u205f' || c == '\u3000'

/-- ASCII letters, the character class spelled a-zA-Z in the tag regex. -/
def isAsciiLetter (c : Char) : Bool :=
  (decide (97 ≤ c.toNat) && decide (c.toNat ≤ 122)) ||
  (decide (65 ≤ c.toNat) && decide (c.toNat ≤ 90))

/-- ASCII decimal digits 0-9: the explicit character class 0-9 of the
list-of-waste sanitizing regex.  The second list-of-waste regex only ever
runs on the ASCII residue of that filter, so the ASCII class is also exact
for it. -/
def isDigitCh (c : Char) : Bool :=
  decide (48 ≤ c.toNat) && decide (c.toNat ≤ 57)

/-- The code-point ranges of the Unicode general category Nd (decimal
number), Unicode 16.0, the table the regex crate ships: this is what the
digit escape matches in the crate's default Unicode mode, used by the
disposal- and recovery-code regexes. -/
def ndRanges : List (Nat × Nat) :=
  [(0x30, 0x39), (0x660, 0x669), (0x6f0, 0x6f9), (0x7c0, 0x7c9),
   (0x966, 0x96f), (0x9e6, 0x9ef), (0xa66, 0xa6f), (0xae6, 0xaef),
   (0xb66, 0xb6f), (0xbe6, 0xbef), (0xc66, 0xc6f), (0xce6, 0xcef),
   (0xd66, 0xd6f), (0xde6, 0xdef), (0xe50, 0xe59), (0xed0, 0xed9),
   (0xf20, 0xf29), (0x1040, 0x1049), (0x1090, 0x1099), (0x17e0, 0x17e9),
   (0x1810, 0x1819), (0x1946, 0x194f), (0x19d0, 0x19d9), (0x1a80, 0x1a89),
   (0x1a90, 0x1a99), (0x1b50, 0x1b59), (0x1bb0, 0x1bb9), (0x1c40, 0x1c49),
   (0x1c50, 0x1c59), (0xa620, 0xa629), (0xa8d0, 0xa8d9), (0xa900, 0xa909),
   (0xa9d0, 0xa9d9), (0xa9f0, 0xa9f9), (0xaa50, 0xaa59), (0xabf0, 0xabf9),
   (0xff10, 0xff19), (0x104a0, 0x104a9), (0x10d30, 0x10d39),
   (0x10d40, 0x10d49), (0x11066, 0x1106f), (0x110f0, 0x110f9),
   (0x11136, 0x1113f), (0x111d0, 0x111d9), (0x112f0, 0x112f9),
   (0x11450, 0x11459), (0x114d0, 0x114d9), (0x11650, 0x11659),
   (0x116c0, 0x116c9), (0x116d0, 0x116e3), (0x11730, 0x11739),
   (0x118e0, 0x118e9), (0x11950, 0x11959), (0x11bf0, 0x11bf9),
   (0x11c50, 0x11c59), (0x11d50, 0x11d59), (0x11da0, 0x11da9),
   (0x11f50, 0x11f59), (0x16130, 0x16139), (0x16a60, 0x16a69),
   (0x16ac0, 0x16ac9), (0x16b50, 0x16b59), (0x16d70, 0x16d79),
   (0x1ccf0, 0x1ccf9), (0x1d7ce, 0x1d7ff), (0x1e140, 0x1e149),
   (0x1e2f0, 0x1e2f9), (0x1e4f0, 0x1e4f9), (0x1e5f1, 0x1e5fa),
   (0x1e950, 0x1e959), (0x1fbf0, 0x1fbf9)]

/-- A Unicode decimal digit: the digit escape of the regex crate in its
default Unicode mode, the class the disposal- and recovery-code regexes
use.  Membership in any Nd range. -/
def isDigitNd (c : Char) : Bool :=
  ndRanges.any fun p => decide (p.1 ≤ c.toNat) && decide (c.toNat ≤ p.2)

/-- ASCII model of Rust char::to_uppercase, applied in the source only to
the leading letter of an already-matched code (d, D, r or R). -/
def upperChar (c : Char) : Char :=
  if 97 ≤ c.toNat ∧ c.toNat ≤ 122 then Char.ofNat (c.toNat - 32) else c

/-- ASCII model of Rust str::to_lowercase, used by parse_env_code before
comparing with the three ASCII family tokens.  Non-ASCII characters are
kept; no non-ASCII character can lowercase onto any of the three tokens,
so the dispatch decision agrees with the source. -/
def toLowerChar (c : Char) : Char :=
  if 65 ≤ c.toNat ∧ c.toNat ≤ 90 then Char.ofNat (c.toNat + 32) else c

def toLowerStr (s : String) : String := String.mk (s.data.map toLowerChar)

/-- Scanner for the closing part of the tag regex: skip the maximal run of
characters other than the closing angle bracket, then consume the closing
bracket; fails when no closing bracket follows. -/
def dropToGt : List Char → Option (List Char)
  | [] => none
  | c :: r => if c = '>' then some r else dropToGt r

/-- The optional slash right after the opening bracket of a tag. -/
def slashSkip : List Char → List Char
  | [] => []
  | c :: r => if c = '/' then r else c :: r

/-- One attempt to match the tag pattern (opening bracket, optional slash,
an ASCII letter, a run of non-closing characters, closing bracket) at the
head of the list.  Returns the remainder after the match. -/
def tagMatch (l : List Char) : Option (List Char) :=
  match l with
  | [] => none
  | c :: rest =>
    if c = '<' then
      match slashSkip rest with
      | [] => none
      | d :: r2 => if isAsciiLetter d then dropToGt r2 else none
    else none

/-- Fueled scanner removing every tag match, replicating replace_all of the
tag regex with the empty replacement. -/
def removeTagsF : Nat → List Char → List Char
  | 0, _ => []
  | _ + 1, [] => []
  | fuel + 1, c :: rest =>
    match tagMatch (c :: rest) with
    | some rem => removeTagsF fuel rem
    | none => c :: removeTagsF fuel rest

def removeTags (l : List Char) : List Char := removeTagsF l.length l

/-- One iteration of the group (whitespace run, then the bracket b) used by
the bracket-collapsing regexes; fails when the group does not match. -/
def afterWsBr (b : Char) : List Char → Option (List Char)
  | [] => none
  | c :: r => if c = b then some r else if isSpace c then afterWsBr b r else none

/-- Greedy repetition of the bracket group, as in the collapsing regexes. -/
def brRunF (b : Char) : Nat → List Char → List Char
  | 0, l => l
  | fuel + 1, l =>
    match afterWsBr b l with
    | some r => brRunF b fuel r
    | none => l

/-- Fueled scanner replacing every maximal run of the bracket b (whitespace
permitted between repeats) by the single replacement character, replicating
replace_all of the collapsing regexes. -/
def collapseBrF (b rep : Char) : Nat → List Char → List Char
  | 0, _ => []
  | _ + 1, [] => []
  | fuel + 1, c :: rest =>
    if c = b then rep :: collapseBrF b rep fuel (brRunF b fuel rest)
    else c :: collapseBrF b rep fuel rest

def collapseBr (b rep : Char) (l : List Char) : List Char := collapseBrF b rep l.length l

/-- Fueled scanner replacing every maximal whitespace run by one space,
replicating replace_all of the whitespace regex with a space. -/
def collapseWsF : Nat → List Char → List Char
  | 0, _ => []
  | _ + 1, [] => []
  | fuel + 1, c :: rest =>
    if isSpace c then ' ' :: collapseWsF fuel (rest.dropWhile fun x => isSpace x)
    else c :: collapseWsF fuel rest

def collapseWs (l : List Char) : List Char := collapseWsF l.length l

/-- Rust str::trim on a character list. -/
def trimList (l : List Char) : List Char :=
  ((l.dropWhile fun c => isSpace c).reverse.dropWhile fun c => isSpace c).reverse

/-- The strip_tags pipeline on a character list, in source order: tag
removal, collapsing of leftover opening brackets, collapsing of leftover
closing brackets, whitespace collapsing, trim. -/
def stripTagsList (l : List Char) : List Char :=
  trimList (collapseWs (collapseBr '>' '»' (collapseBr '<' '«' (removeTags l))))

/-- Embedding of strip_tags from src/src/lib.rs. -/
def strip_tags : Option String → String
  | none => ""
  | some s => String.mk (stripTagsList s.data)

/-- Whole-string match for what follows the leading letter in the disposal
and recovery code regexes: one or two digits, optionally a dot and one or
two more digits, anchored at both ends. -/
def codeTail : List Char → Bool
  | [a] => isDigitNd a
  | [a, b] => isDigitNd a && isDigitNd b
  | [a, b, c] => isDigitNd a && b == '.' && isDigitNd c
  | [a, b, c, d] =>
    (isDigitNd a && b == '.' && isDigitNd c && isDigitNd d) ||
    (isDigitNd a && isDigitNd b && c == '.' && isDigitNd d)
  | [a, b, c, d, e] => isDigitNd a && isDigitNd b && c == '.' && isDigitNd d && isDigitNd e
  | _ => false

/-- Embedding of parse_disposal_code from src/src/lib.rs: trim, match the
anchored case-insensitive disposal grammar, return the match with its first
character uppercased. -/
def parse_disposal_code (value : String) : Option String :=
  match trimList value.data with
  | [] => none
  | c :: rest =>
    if (c == 'D' || c == 'd') && codeTail rest
    then some (String.mk (upperChar c :: rest)) else none

/-- Embedding of parse_recovery_code from src/src/lib.rs. -/
def parse_recovery_code (value : String) : Option String :=
  match trimList value.data with
  | [] => none
  | c :: rest =>
    if (c == 'R' || c == 'r') && codeTail rest
    then some (String.mk (upperChar c :: rest)) else none

/-- The sanitizing pass of parse_low_code: delete every character that is
neither an ASCII digit nor the star. -/
def lowFilter (l : List Char) : List Char := l.filter fun c => isDigitCh c || c == '*'

/-- Whole-string match for six digits followed by a star. -/
def starForm : List Char → Bool
  | [a, b, c, d, e, f, g] =>
    isDigitCh a && isDigitCh b && isDigitCh c && isDigitCh d &&
    isDigitCh e && isDigitCh f && g == '*'
  | _ => false

/-- Whole-string match for the list-of-waste grammar: exactly 2, 4 or 6
digits, or 6 digits and a star. -/
def lowForm (l : List Char) : Bool :=
  ((l.length == 2 || l.length == 4 || l.length == 6) && l.all isDigitCh) || starForm l

/-- Embedding of parse_low_code from src/src/lib.rs. -/
def parse_low_code (value : String) : Option String :=
  let san := lowFilter value.data
  if san = [] then none
  else if lowForm san then some (String.mk san) else none

/-- Embedding of parse_env_code from src/src/lib.rs: empty guard, then
case-insensitive dispatch on the family token. -/
def parse_env_code (value code_type : String) : Option String :=
  if code_type = "" ∨ value = "" then none
  else
    if toLowerStr code_type = "disposalcode" then parse_disposal_code value
    else if toLowerStr code_type = "recoverycode" then parse_recovery_code value
    else if toLowerStr code_type = "lowcode" then parse_low_code value
    else none

/-- A 128-bit identifier, as the 16 bytes the source reads with as_bytes. -/
abbrev Bytes16 := Fin 16 → Fin 256

/-- The version nibble: high four bits of byte 6, as in the source. -/
def versionOf (b : Bytes16) : Nat := ((b 6).val >>> 4) &&& 0x0F

/-- The 48-bit big-endian millisecond count assembled from bytes 0-5 by
shifts and bitwise or, as in the source. -/
def msOf (b : Bytes16) : Nat :=
  ((b 0).val <<< 40) ||| ((b 1).val <<< 32) ||| ((b 2).val <<< 24) |||
  ((b 3).val <<< 16) ||| ((b 4).val <<< 8) ||| (b 5).val

/-- Whole seconds, the unsigned 64-bit division by 1000 of the source. -/
def secsOf (b : Bytes16) : Nat := msOf b / 1000

/-- Sub-second nanoseconds, as computed by the source. -/
def nanosOf (b : Bytes16) : Nat := (msOf b % 1000) * 1000000

/-- Gregorian leap-year test on the proleptic calendar year. -/
def isLeapY (y : Nat) : Bool := (y % 4 == 0 && y % 100 != 0) || y % 400 == 0

def yearLengthY (y : Nat) : Nat := if isLeapY y then 366 else 365

/-- Length of a calendar month (1 = January .. 12 = December). -/
def monthLenB (leap : Bool) (m : Nat) : Nat :=
  if m = 2 then (if leap then 29 else 28)
  else if m = 4 ∨ m = 6 ∨ m = 9 ∨ m = 11 then 30 else 31

/-- Modelled from the spec: the year scan of the UTC calendar conversion
facility (chrono in the source).  Starting from a year and a remaining day
count, subtract whole year lengths until fewer than one year of days
remains; the fuel argument only makes the recursion structural. -/
def civilRec : Nat → Nat → Nat → Nat × Nat
  | 0, y, r => (y, r)
  | fuel + 1, y, r =>
    if r < yearLengthY y then (y, r) else civilRec fuel (y + 1) (r - yearLengthY y)

/-- Year and zero-based ordinal day for a count of days since 1970-01-01. -/
def civilYD (days : Nat) : Nat × Nat := civilRec days 1970 days

/-- Modelled from the spec: the month scan of the UTC calendar conversion
facility.  Starting from month m with a zero-based day-of-year remainder,
subtract whole month lengths; returns the month and one-based day. -/
def monthScan (leap : Bool) : Nat → Nat → Nat → Nat × Nat
  | 0, m, r => (m, r + 1)
  | fuel + 1, m, r =>
    if r < monthLenB leap m then (m, r + 1)
    else monthScan leap fuel (m + 1) (r - monthLenB leap m)

/-- Total length of months m, m+1, ..., m+f. -/
def lenSum (leap : Bool) (m : Nat) : Nat → Nat
  | 0 => monthLenB leap m
  | f + 1 => monthLenB leap m + lenSum leap (m + 1) f

/-- The calendar fields chrono exposes on a UTC datetime. -/
structure ChronoDT where
  year : Nat
  month : Nat
  day : Nat
  hour : Nat
  minute : Nat
  second : Nat
  subsecNanos : Nat
deriving DecidableEq

/-- Modelled from the spec: chrono DateTime::from_timestamp, the wall-clock
to UTC-calendar conversion facility the decoder calls.  It fails on an
invalid nanosecond count or on seconds beyond chrono's representable range;
the decoder's own range guard keeps every call far inside both bounds.
Negative seconds cannot reach it from the decoder (the millisecond count is
unsigned), so the model takes a natural number of seconds. -/
def chronoFromTimestamp (secs nanos : Nat) : Option ChronoDT :=
  if nanos < 1000000000 ∧ secs ≤ 8210266876799 then
    let yd := civilYD (secs / 86400)
    let md := monthScan (isLeapY yd.1) 11 1 yd.2
    some ⟨yd.1, md.1, md.2, secs % 86400 / 3600, secs % 86400 % 3600 / 60,
      secs % 86400 % 60, nanos⟩
  else none

/-- A PostgreSQL timestamp as pgrx builds it: calendar fields plus a
fractional-seconds field.  The source passes the fraction as the floating
value second + nanos / 1e9; the model keeps that exact rational value
scaled to integer nanoseconds (secondNanos = second * 1e9 + nanos), an
exact encoding well inside the tolerance every claim uses. -/
structure PgTimestamp where
  year : Nat
  month : Nat
  day : Nat
  hour : Nat
  minute : Nat
  secondNanos : Nat
deriving DecidableEq

/-- Modelled from the spec: pgrx Timestamp::new, which validates its field
arguments and fails (the construction-failure path of the decoder) when any
is out of calendar range. -/
def timestampNew (y mo d h mi sNanos : Nat) : Option PgTimestamp :=
  if 1 ≤ mo ∧ mo ≤ 12 ∧ 1 ≤ d ∧ d ≤ monthLenB (isLeapY y) mo ∧
     h ≤ 23 ∧ mi ≤ 59 ∧ sNanos < 60000000000
  then some ⟨y, mo, d, h, mi, sNanos⟩ else none

/-- Embedding of uuid_to_ts from src/src/lib.rs: version-nibble guard,
range guard on the decoded seconds (the source compares a signed 64-bit
value, modelled by the integer casts), calendar construction through the
two external facilities. -/
def uuid_to_ts (b : Bytes16) : Option PgTimestamp :=
  if versionOf b ≠ 7 then none
  else if (secsOf b : Int) < -62135596800 ∨ (secsOf b : Int) > 253402300799 then none
  else
    match chronoFromTimestamp (secsOf b) (nanosOf b) with
    | none => none
    | some dt =>
      timestampNew dt.year dt.month dt.day dt.hour dt.minute
        (dt.second * 1000000000 + dt.subsecNanos)

/-- The byte layout of the version-7 identifier used by the source's own
test for uuid_to_ts (timestamp 2023-11-26 16:48:29.952 UTC). -/
def testUuidBytes : Bytes16 := fun i =>
  ([0x01, 0x8c, 0x0c, 0x88, 0x53, 0x00, 0x7c, 0xb5,
    0xb7, 0x8c, 0xdc, 0x0f, 0xe5, 0x42, 0x78, 0x27] : List (Fin 256)).getD i.val 0

/-- Spec-side grammar for what follows the leading letter of a disposal or
recovery code, written from the spec's words: one or two digits (Unicode
decimal digits, as matched by the source regexes), optionally followed by a
dot and one or two more digits. -/
def TailGrammar (l : List Char) : Prop :=
  ∃ ds es : List Char,
    (∀ c ∈ ds, isDigitNd c = true) ∧ 1 ≤ ds.length ∧ ds.length ≤ 2 ∧
    (l = ds ∨
      ((∀ c ∈ es, isDigitNd c = true) ∧ 1 ≤ es.length ∧ es.length ≤ 2 ∧
        l = ds ++ '.' :: es))

/-- Spec-side grammar for a sanitized list-of-waste residue, written from
the spec's words: exactly 2, 4 or 6 digits, or 6 digits followed by a
star. -/
def LowGrammar (l : List Char) : Prop :=
  ((∀ c ∈ l, isDigitCh c = true) ∧ (l.length = 2 ∨ l.length = 4 ∨ l.length = 6)) ∨
  (∃ d6 : List Char, (∀ c ∈ d6, isDigitCh c = true) ∧ d6.length = 6 ∧ l = d6 ++ ['*'])

/-- A continuation of a bracket run: any number of groups made of a
whitespace run followed by the bracket b.  A full run in the sense of the
spec is the bracket b followed by such a continuation. -/
inductive BrRunP (b : Char) : List Char → Prop
  | nil : BrRunP b []
  | grp (w rest : List Char) (hw : ∀ c ∈ w, isSpace c = true) (h : BrRunP b rest) :
      BrRunP b (w ++ b :: rest)

/-- A bracketed token's interior does not start a tag: its first character
is not an ASCII letter, and if it is the optional slash the next character
is not an ASCII letter either. -/
def notTagStartB : List Char → Bool
  | [] => true
  | c :: rest =>
    if c = '/' then
      match rest with
      | [] => true
      | d :: _ => !isAsciiLetter d
    else !isAsciiLetter c

/-- The wrong-version rejection path of uuid_to_ts. -/
abbrev pathWrongVersion (b : Bytes16) : Prop := versionOf b ≠ 7

/-- The range condition tested by uuid_to_ts on the decoded seconds. -/
abbrev secsOutOfRange (b : Bytes16) : Prop :=
  (secsOf b : Int) < -62135596800 ∨ (secsOf b : Int) > 253402300799

/-- The out-of-range rejection path of uuid_to_ts. -/
abbrev pathOutOfRange (b : Bytes16) : Prop := versionOf b = 7 ∧ secsOutOfRange b

/-- The construction-failure rejection path of uuid_to_ts: a version-7
in-range identifier for which one of the two calendar construction steps
reports failure. -/
abbrev pathBuildFail (b : Bytes16) : Prop :=
  versionOf b = 7 ∧ ¬secsOutOfRange b ∧
  (chronoFromTimestamp (secsOf b) (nanosOf b) = none ∨
    ∃ dt, chronoFromTimestamp (secsOf b) (nanosOf b) = some dt ∧
      timestampNew dt.year dt.month dt.day dt.hour dt.minute
        (dt.second * 1000000000 + dt.subsecNanos) = none)

/-! Length bounds for the scanners, and independence from the fuel once the
fuel covers the input length. -/

lemma dropToGt_len : ∀ {l r : List Char}, dropToGt l = some r → r.length < l.length := by
  intro l
  induction l with
  | nil => intro r h; simp [dropToGt] at h
  | cons c t ih =>
    intro r h
    rw [dropToGt] at h
    by_cases hc : c = '>'
    · rw [if_pos hc] at h
      cases h
      simp
    · rw [if_neg hc] at h
      have := ih h
      simp
      omega

lemma slashSkip_len (l : List Char) : (slashSkip l).length ≤ l.length := by
  cases l with
  | nil => simp [slashSkip]
  | cons c t =>
    rw [slashSkip]
    split <;> simp

lemma tagMatch_len : ∀ {l r : List Char}, tagMatch l = some r → r.length < l.length := by
  intro l r h
  cases l with
  | nil => simp [tagMatch] at h
  | cons c rest =>
    rw [tagMatch] at h
    by_cases hc : c = '<'
    · rw [if_pos hc] at h
      cases hs : slashSkip rest with
      | nil => rw [hs] at h; simp at h
      | cons d r2 =>
        rw [hs] at h
        replace h : (if isAsciiLetter d = true then dropToGt r2 else none) = some r := h
        by_cases hd : isAsciiLetter d = true
        · rw [if_pos hd] at h
          have h1 := dropToGt_len h
          have h2 : (d :: r2).length ≤ rest.length := hs ▸ slashSkip_len rest
          simp only [List.length_cons] at h1 h2 ⊢
          omega
        · rw [if_neg hd] at h; simp at h
    · rw [if_neg hc] at h; simp at h

lemma afterWsBr_len {b : Char} : ∀ {l r : List Char},
    afterWsBr b l = some r → r.length < l.length := by
  intro l
  induction l with
  | nil => intro r h; simp [afterWsBr] at h
  | cons c t ih =>
    intro r h
    rw [afterWsBr] at h
    by_cases hc : c = b
    · rw [if_pos hc] at h
      cases h
      simp
    · rw [if_neg hc] at h
      by_cases hs : isSpace c = true
      · rw [if_pos hs] at h
        have := ih h
        simp
        omega
      · rw [if_neg hs] at h; simp at h

lemma brRunF_len {b : Char} : ∀ {f : Nat} {l : List Char},
    (brRunF b f l).length ≤ l.length := by
  intro f
  induction f with
  | zero => intro l; simp [brRunF]
  | succ f ih =>
    intro l
    rw [brRunF]
    cases h : afterWsBr b l with
    | none => simp
    | some r =>
      have h1 := afterWsBr_len h
      have h2 := @ih r
      simp only []
      omega

lemma removeTagsF_fuel : ∀ f : Nat, ∀ l : List Char, l.length ≤ f →
    removeTagsF f l = removeTags l := by
  intro f
  induction f using Nat.strong_induction_on with
  | _ f ih =>
    intro l hl
    cases l with
    | nil => cases f <;> rfl
    | cons c rest =>
      cases f with
      | zero => simp at hl
      | succ f =>
        simp only [List.length_cons] at hl
        rw [removeTags]
        simp only [List.length_cons]
        cases h : tagMatch (c :: rest) with
        | some rem =>
          have hlen := tagMatch_len h
          simp only [List.length_cons] at hlen
          simp only [removeTagsF, h]
          rw [ih f (by omega) rem (by omega),
            ih rest.length (by omega) rem (by omega)]
        | none =>
          simp only [removeTagsF, h]
          rw [ih f (by omega) rest (by omega),
            ih rest.length (by omega) rest (by omega)]

lemma brRunF_fuel {b : Char} : ∀ f : Nat, ∀ l : List Char, l.length ≤ f →
    brRunF b f l = brRunF b l.length l := by
  intro f
  induction f using Nat.strong_induction_on with
  | _ f ih =>
    intro l hl
    cases f with
    | zero =>
      cases l with
      | nil => rfl
      | cons c rest => simp at hl
    | succ f =>
      cases l with
      | nil => rfl
      | cons c rest =>
        simp only [List.length_cons] at hl
        simp only [List.length_cons]
        cases h : afterWsBr b (c :: rest) with
        | none => simp only [brRunF, h]
        | some r =>
          have hlen := afterWsBr_len h
          simp only [List.length_cons] at hlen
          simp only [brRunF, h]
          rw [ih f (by omega) r (by omega),
            ih rest.length (by omega) r (by omega)]

lemma collapseBrF_fuel {b rep : Char} : ∀ f : Nat, ∀ l : List Char, l.length ≤ f →
    collapseBrF b rep f l = collapseBr b rep l := by
  intro f
  induction f using Nat.strong_induction_on with
  | _ f ih =>
    intro l hl
    cases l with
    | nil => cases f <;> rfl
    | cons c rest =>
      cases f with
      | zero => simp at hl
      | succ f =>
        simp only [List.length_cons] at hl
        rw [collapseBr]
        simp only [List.length_cons]
        simp only [collapseBrF]
        by_cases hc : c = b
        · rw [if_pos hc]
          rw [if_pos hc]
          rw [brRunF_fuel f rest (by omega)]
          have hrl : (brRunF b rest.length rest).length ≤ rest.length := brRunF_len
          rw [ih f (by omega) _ (by omega),
            ih rest.length (by omega) _ (by omega)]
        · rw [if_neg hc]
          rw [if_neg hc]
          rw [ih f (by omega) rest (by omega),
            ih rest.length (by omega) rest (by omega)]

lemma collapseWsF_fuel : ∀ f : Nat, ∀ l : List Char, l.length ≤ f →
    collapseWsF f l = collapseWs l := by
  intro f
  induction f using Nat.strong_induction_on with
  | _ f ih =>
    intro l hl
    cases l with
    | nil => cases f <;> rfl
    | cons c rest =>
      cases f with
      | zero => simp at hl
      | succ f =>
        simp only [List.length_cons] at hl
        rw [collapseWs]
        simp only [List.length_cons]
        simp only [collapseWsF]
        by_cases hc : isSpace c = true
        · rw [if_pos hc]
          rw [if_pos hc]
          have hdl : (rest.dropWhile fun x => isSpace x).length ≤ rest.length :=
            (List.dropWhile_sublist _).length_le
          rw [ih f (by omega) _ (by omega),
            ih rest.length (by omega) _ (by omega)]
        · rw [if_neg hc]
          rw [if_neg hc]
          rw [ih f (by omega) rest (by omega),
            ih rest.length (by omega) rest (by omega)]

/-! Behaviour of the scanners on bracket-free and whitespace-free text, and
membership facts about their outputs. -/

lemma tagMatch_ne {c : Char} (rest : List Char) (hc : c ≠ '<') :
    tagMatch (c :: rest) = none := by
  rw [tagMatch]
  rw [if_neg hc]

lemma removeTagsF_no_lt : ∀ l : List Char, (∀ x ∈ l, x ≠ '<') →
    ∀ f : Nat, l.length ≤ f → removeTagsF f l = l := by
  intro l
  induction l with
  | nil =>
    intro _ f _
    cases f <;> rfl
  | cons c rest ih =>
    intro hx f hf
    cases f with
    | zero => simp at hf
    | succ f =>
      have hc : c ≠ '<' := hx c (by simp)
      simp only [removeTagsF, tagMatch_ne rest hc]
      rw [ih (fun x hm => hx x (by simp [hm])) f (by simp at hf; omega)]

lemma afterWsBr_stop {b c : Char} (r : List Char) (hc : c ≠ b)
    (hs : isSpace c = false) : afterWsBr b (c :: r) = none := by
  rw [afterWsBr]
  rw [if_neg hc, if_neg (by simp [hs])]

lemma brRunF_id {b : Char} {l : List Char} (h : afterWsBr b l = none) :
    ∀ f, brRunF b f l = l := by
  intro f
  cases f with
  | zero => rfl
  | succ f => simp only [brRunF, h]

lemma collapseBrF_no_b : ∀ l : List Char, ∀ {b rep : Char}, (∀ x ∈ l, x ≠ b) →
    ∀ f : Nat, l.length ≤ f → collapseBrF b rep f l = l := by
  intro l
  induction l with
  | nil =>
    intro b rep _ f _
    cases f <;> rfl
  | cons c rest ih =>
    intro b rep hx f hf
    cases f with
    | zero => simp at hf
    | succ f =>
      have hc : c ≠ b := hx c (by simp)
      simp only [collapseBrF]
      rw [if_neg hc]
      rw [ih (fun x hm => hx x (by simp [hm])) f (by simp at hf; omega)]

lemma collapseWsF_no_ws : ∀ l : List Char, (∀ x ∈ l, isSpace x = false) →
    ∀ f : Nat, l.length ≤ f → collapseWsF f l = l := by
  intro l
  induction l with
  | nil =>
    intro _ f _
    cases f <;> rfl
  | cons c rest ih =>
    intro hx f hf
    cases f with
    | zero => simp at hf
    | succ f =>
      have hc : isSpace c = false := hx c (by simp)
      simp only [collapseWsF]
      rw [if_neg (by simp [hc])]
      rw [ih (fun x hm => hx x (by simp [hm])) f (by simp at hf; omega)]

lemma dropWhile_all_false {l : List Char} (h : ∀ x ∈ l, isSpace x = false) :
    (l.dropWhile fun c => isSpace c) = l := by
  cases l with
  | nil => rfl
  | cons c rest =>
    rw [List.dropWhile_cons]
    rw [if_neg (by simp [h c (by simp)])]

lemma trimList_no_ws {l : List Char} (h : ∀ x ∈ l, isSpace x = false) :
    trimList l = l := by
  rw [trimList, dropWhile_all_false h,
    dropWhile_all_false (fun x hm => h x (List.mem_reverse.mp hm)), List.reverse_reverse]

lemma afterWsBr_mem {b : Char} : ∀ {l r : List Char}, afterWsBr b l = some r →
    ∀ x ∈ r, x ∈ l := by
  intro l
  induction l with
  | nil => intro r h; simp [afterWsBr] at h
  | cons c t ih =>
    intro r h x hx
    rw [afterWsBr] at h
    by_cases hc : c = b
    · rw [if_pos hc] at h
      cases h
      simp [hx]
    · rw [if_neg hc] at h
      by_cases hs : isSpace c = true
      · rw [if_pos hs] at h
        simp [ih h x hx]
      · rw [if_neg hs] at h; simp at h

lemma brRunF_mem {b : Char} : ∀ {f : Nat} {l : List Char}, ∀ x ∈ brRunF b f l, x ∈ l := by
  intro f
  induction f with
  | zero => intro l x hx; simpa [brRunF] using hx
  | succ f ih =>
    intro l x hx
    rw [brRunF] at hx
    cases h : afterWsBr b l with
    | none => rw [h] at hx; exact hx
    | some r =>
      rw [h] at hx
      exact afterWsBr_mem h x (ih x hx)

lemma collapseBrF_mem : ∀ f : Nat, ∀ {l : List Char} {b rep : Char},
    ∀ x ∈ collapseBrF b rep f l, x = rep ∨ x ∈ l := by
  intro f
  induction f with
  | zero => intro l b rep x hx; simp [collapseBrF] at hx
  | succ f ih =>
    intro l b rep x hx
    cases l with
    | nil => simp [collapseBrF] at hx
    | cons c rest =>
      rw [collapseBrF] at hx
      by_cases hc : c = b
      · rw [if_pos hc] at hx
        rcases List.mem_cons.mp hx with h1 | h1
        · exact Or.inl h1
        · rcases ih x h1 with h2 | h2
          · exact Or.inl h2
          · exact Or.inr (by simp [brRunF_mem x h2])
      · rw [if_neg hc] at hx
        rcases List.mem_cons.mp hx with h1 | h1
        · exact Or.inr (by simp [h1])
        · rcases ih x h1 with h2 | h2
          · exact Or.inl h2
          · exact Or.inr (by simp [h2])

lemma collapseBrF_b_not_mem : ∀ f : Nat, ∀ {l : List Char} {b rep : Char},
    b ≠ rep → b ∉ collapseBrF b rep f l := by
  intro f
  induction f with
  | zero => intro l b rep _ hx; simp [collapseBrF] at hx
  | succ f ih =>
    intro l b rep hbr hx
    cases l with
    | nil => simp [collapseBrF] at hx
    | cons c rest =>
      rw [collapseBrF] at hx
      by_cases hc : c = b
      · rw [if_pos hc] at hx
        rcases List.mem_cons.mp hx with h1 | h1
        · exact hbr h1
        · exact ih hbr h1
      · rw [if_neg hc] at hx
        rcases List.mem_cons.mp hx with h1 | h1
        · exact hc h1.symm
        · exact ih hbr h1

lemma collapseWsF_mem : ∀ f : Nat, ∀ {l : List Char},
    ∀ x ∈ collapseWsF f l, x = ' ' ∨ x ∈ l := by
  intro f
  induction f with
  | zero => intro l x hx; simp [collapseWsF] at hx
  | succ f ih =>
    intro l x hx
    cases l with
    | nil => simp [collapseWsF] at hx
    | cons c rest =>
      rw [collapseWsF] at hx
      by_cases hc : isSpace c = true
      · rw [if_pos hc] at hx
        rcases List.mem_cons.mp hx with h1 | h1
        · exact Or.inl h1
        · rcases ih x h1 with h2 | h2
          · exact Or.inl h2
          · exact Or.inr (by
              simp [(List.dropWhile_sublist _).subset h2])
      · rw [if_neg hc] at hx
        rcases List.mem_cons.mp hx with h1 | h1
        · exact Or.inr (by simp [h1])
        · rcases ih x h1 with h2 | h2
          · exact Or.inl h2
          · exact Or.inr (by simp [h2])

lemma trimList_mem {l : List Char} : ∀ x ∈ trimList l, x ∈ l := by
  intro x hx
  rw [trimList] at hx
  have h1 := List.mem_reverse.mp hx
  have h2 := (List.dropWhile_sublist _).subset h1
  have h3 := List.mem_reverse.mp h2
  exact (List.dropWhile_sublist _).subset h3

/-! Exact behaviour of tag removal on a well-formed tag and on an ordinary
character. -/

lemma dropToGt_through : ∀ body : List Char, (∀ x ∈ body, x ≠ '>') →
    ∀ rest, dropToGt (body ++ '>' :: rest) = some rest := by
  intro body
  induction body with
  | nil =>
    intro _ rest
    rw [List.nil_append, dropToGt]
    rw [if_pos rfl]
  | cons c t ih =>
    intro hx rest
    rw [List.cons_append, dropToGt]
    rw [if_neg (hx c (by simp))]
    exact ih (fun x hm => hx x (by simp [hm])) rest

lemma tagMatch_tag {sl : List Char} {c : Char} {body rest : List Char}
    (hsl : sl = [] ∨ sl = ['/']) (hc : isAsciiLetter c = true)
    (hbody : ∀ x ∈ body, x ≠ '>') :
    tagMatch ('<' :: (sl ++ c :: (body ++ '>' :: rest))) = some rest := by
  have hcs : c ≠ '/' := by
    intro h
    rw [h] at hc
    simp [isAsciiLetter] at hc
  rcases hsl with h | h <;> subst h
  · rw [List.nil_append, tagMatch]
    rw [if_pos rfl]
    rw [slashSkip]
    rw [if_neg hcs]
    show (if isAsciiLetter c = true then dropToGt (body ++ '>' :: rest) else none) = some rest
    rw [if_pos hc]
    exact dropToGt_through body hbody rest
  · rw [List.cons_append, List.nil_append, tagMatch]
    rw [if_pos rfl]
    rw [slashSkip]
    rw [if_pos rfl]
    show (if isAsciiLetter c = true then dropToGt (body ++ '>' :: rest) else none) = some rest
    rw [if_pos hc]
    exact dropToGt_through body hbody rest

lemma removeTags_tag {sl : List Char} {c : Char} {body rest : List Char}
    (hsl : sl = [] ∨ sl = ['/']) (hc : isAsciiLetter c = true)
    (hbody : ∀ x ∈ body, x ≠ '>') :
    removeTags ('<' :: (sl ++ c :: (body ++ '>' :: rest))) = removeTags rest := by
  have hm := @tagMatch_tag sl c body rest hsl hc hbody
  rw [removeTags]
  simp only [List.length_cons]
  simp only [removeTagsF, hm]
  apply removeTagsF_fuel
  simp
  omega

lemma removeTags_cons_ne {c : Char} (l : List Char) (hc : c ≠ '<') :
    removeTags (c :: l) = c :: removeTags l := by
  rw [removeTags]
  simp only [List.length_cons]
  simp only [removeTagsF, tagMatch_ne l hc]
  rw [removeTags]

/-! Exact behaviour of bracket collapsing on a bracket run. -/

lemma afterWsBr_group {b : Char} (hb : isSpace b = false) :
    ∀ w : List Char, (∀ x ∈ w, isSpace x = true) →
    ∀ rest, afterWsBr b (w ++ b :: rest) = some rest := by
  intro w
  induction w with
  | nil =>
    intro _ rest
    rw [List.nil_append, afterWsBr]
    rw [if_pos rfl]
  | cons c t ih =>
    intro hx rest
    have hcb : c ≠ b := by
      intro h
      have h1 := hx c (by simp)
      rw [h] at h1
      rw [h1] at hb
      exact Bool.noConfusion hb
    rw [List.cons_append, afterWsBr]
    rw [if_neg hcb, if_pos (hx c (by simp))]
    exact ih (fun x hm => hx x (by simp [hm])) rest

lemma brRun_eats {b : Char} (hb : isSpace b = false) :
    ∀ {mid : List Char}, BrRunP b mid → ∀ {rest : List Char},
    afterWsBr b rest = none → ∀ f, (mid ++ rest).length ≤ f →
    brRunF b f (mid ++ rest) = rest := by
  intro mid hmid
  induction hmid with
  | nil =>
    intro rest hrest f _
    rw [List.nil_append]
    exact brRunF_id hrest f
  | grp w mid2 hw _ ih =>
    intro rest hrest f hf
    have hassoc : (w ++ b :: mid2) ++ rest = w ++ b :: (mid2 ++ rest) := by
      simp
    rw [hassoc] at hf ⊢
    cases f with
    | zero => simp at hf
    | succ f =>
      rw [brRunF]
      rw [afterWsBr_group hb w hw (mid2 ++ rest)]
      apply ih hrest
      simp at hf ⊢
      omega

lemma collapseBr_run {b rep : Char} (hb : isSpace b = false)
    {mid : List Char} (hmid : BrRunP b mid) {rest : List Char}
    (hrest : afterWsBr b rest = none) :
    collapseBr b rep (b :: (mid ++ rest)) = rep :: collapseBr b rep rest := by
  rw [collapseBr]
  simp only [List.length_cons]
  simp only [collapseBrF]
  rw [if_pos trivial]
  rw [brRun_eats hb hmid hrest (mid ++ rest).length (le_refl _)]
  rw [collapseBrF_fuel (mid ++ rest).length rest (by simp)]

/-! The anchored regex alternatives of the code recognizers coincide with
the spec grammars. -/

lemma codeTail_iff (l : List Char) : codeTail l = true ↔ TailGrammar l := by
  constructor
  · intro h
    rcases l with _ | ⟨a, _ | ⟨b, _ | ⟨c, _ | ⟨d, _ | ⟨e, _ | ⟨x, xs⟩⟩⟩⟩⟩⟩
    · simp [codeTail] at h
    · simp only [codeTail] at h
      exact ⟨[a], [], by simp [h], by simp, by simp, Or.inl rfl⟩
    · simp only [codeTail, Bool.and_eq_true] at h
      exact ⟨[a, b], [], by simp [h.1, h.2], by simp, by simp, Or.inl rfl⟩
    · simp only [codeTail, Bool.and_eq_true, beq_iff_eq] at h
      exact ⟨[a], [c], by simp [h.1.1], by simp, by simp,
        Or.inr ⟨by simp [h.2], by simp, by simp, by simp [h.1.2]⟩⟩
    · simp only [codeTail, Bool.or_eq_true, Bool.and_eq_true, beq_iff_eq] at h
      rcases h with ⟨⟨⟨h1, h2⟩, h3⟩, h4⟩ | ⟨⟨⟨h1, h2⟩, h3⟩, h4⟩
      · exact ⟨[a], [c, d], by simp [h1], by simp, by simp,
          Or.inr ⟨by simp [h3, h4], by simp, by simp, by simp [h2]⟩⟩
      · exact ⟨[a, b], [d], by simp [h1, h2], by simp, by simp,
          Or.inr ⟨by simp [h4], by simp, by simp, by simp [h3]⟩⟩
    · simp only [codeTail, Bool.and_eq_true, beq_iff_eq] at h
      exact ⟨[a, b], [d, e], by simp [h.1.1.1.1, h.1.1.1.2], by simp, by simp,
        Or.inr ⟨by simp [h.1.2, h.2], by simp, by simp, by simp [h.1.1.2]⟩⟩
    · have hf : codeTail (a :: b :: c :: d :: e :: x :: xs) = false := rfl
      rw [hf] at h
      exact Bool.noConfusion h
  · intro hg
    rcases hg with ⟨ds, es, hds, hlen1, hlen2, hor⟩
    rcases ds with _ | ⟨a, _ | ⟨b, t⟩⟩
    · simp at hlen1
    · rcases hor with hor | ⟨hes, helen1, helen2, hor⟩
      · subst hor
        simp [codeTail, hds a (by simp)]
      · subst hor
        rcases es with _ | ⟨p, _ | ⟨q, t2⟩⟩
        · simp at helen1
        · simp [codeTail, hds a (by simp), hes p (by simp)]
        · rcases t2 with _ | ⟨z, t3⟩
          · simp [codeTail, hds a (by simp), hes p (by simp), hes q (by simp)]
          · simp at helen2
    · rcases t with _ | ⟨z, t1⟩
      · rcases hor with hor | ⟨hes, helen1, helen2, hor⟩
        · subst hor
          simp [codeTail, hds a (by simp), hds b (by simp)]
        · subst hor
          rcases es with _ | ⟨p, _ | ⟨q, t2⟩⟩
          · simp at helen1
          · simp [codeTail, hds a (by simp), hds b (by simp), hes p (by simp)]
          · rcases t2 with _ | ⟨z, t3⟩
            · simp [codeTail, hds a (by simp), hds b (by simp), hes p (by simp),
                hes q (by simp)]
            · simp at helen2
      · simp at hlen2

lemma lowForm_iff (l : List Char) : lowForm l = true ↔ LowGrammar l := by
  constructor
  · intro h
    rw [lowForm] at h
    rw [Bool.or_eq_true] at h
    rcases h with h1 | h1
    · left
      rw [Bool.and_eq_true] at h1
      refine ⟨fun c hc => List.all_eq_true.mp h1.2 c hc, ?_⟩
      have h3 := h1.1
      simp only [Bool.or_eq_true, beq_iff_eq] at h3
      tauto
    · right
      rcases l with _ | ⟨a, _ | ⟨b, _ | ⟨c, _ | ⟨d, _ | ⟨e, _ | ⟨f, _ | ⟨g, _ | ⟨x, xs⟩⟩⟩⟩⟩⟩⟩⟩
      · exact Bool.noConfusion ((rfl : starForm [] = false) ▸ h1)
      · exact Bool.noConfusion ((rfl : starForm [a] = false) ▸ h1)
      · exact Bool.noConfusion ((rfl : starForm [a, b] = false) ▸ h1)
      · exact Bool.noConfusion ((rfl : starForm [a, b, c] = false) ▸ h1)
      · exact Bool.noConfusion ((rfl : starForm [a, b, c, d] = false) ▸ h1)
      · exact Bool.noConfusion ((rfl : starForm [a, b, c, d, e] = false) ▸ h1)
      · exact Bool.noConfusion ((rfl : starForm [a, b, c, d, e, f] = false) ▸ h1)
      · simp only [starForm, Bool.and_eq_true, beq_iff_eq] at h1
        refine ⟨[a, b, c, d, e, f], ?_, by simp, ?_⟩
        · simp [h1.1.1.1.1.1.1, h1.1.1.1.1.1.2, h1.1.1.1.1.2, h1.1.1.1.2,
            h1.1.1.2, h1.1.2]
        · simp [h1.2]
      · exact Bool.noConfusion
          ((rfl : starForm (a :: b :: c :: d :: e :: f :: g :: x :: xs) = false) ▸ h1)
  · intro hg
    rw [lowForm, Bool.or_eq_true]
    rcases hg with ⟨hdig, hlen⟩ | ⟨d6, hdig, hlen, heq⟩
    · left
      rw [Bool.and_eq_true]
      refine ⟨?_, List.all_eq_true.mpr hdig⟩
      simp only [Bool.or_eq_true, beq_iff_eq]
      tauto
    · right
      subst heq
      rcases d6 with _ | ⟨a, _ | ⟨b, _ | ⟨c, _ | ⟨d, _ | ⟨e, _ | ⟨f, t⟩⟩⟩⟩⟩⟩
      · simp at hlen
      · simp at hlen
      · simp at hlen
      · simp at hlen
      · simp at hlen
      · simp at hlen
      · rcases t with _ | ⟨x, t1⟩
        · simp [starForm, hdig a (by simp), hdig b (by simp), hdig c (by simp),
            hdig d (by simp), hdig e (by simp), hdig f (by simp)]
        · simp at hlen

/-! Validity of the calendar fields produced by the conversion facility. -/

lemma yearLengthY_pos (y : Nat) : 365 ≤ yearLengthY y := by
  rw [yearLengthY]
  split <;> omega

lemma civilRec_bound : ∀ f y r : Nat, r ≤ f →
    (civilRec f y r).2 < yearLengthY (civilRec f y r).1 := by
  intro f
  induction f with
  | zero =>
    intro y r h
    have : r = 0 := Nat.le_zero.mp h
    subst this
    rw [civilRec]
    have := yearLengthY_pos y
    simp
    omega
  | succ f ih =>
    intro y r h
    rw [civilRec]
    by_cases hr : r < yearLengthY y
    · rw [if_pos hr]
      exact hr
    · rw [if_neg hr]
      apply ih
      have := yearLengthY_pos y
      omega

lemma monthScan_bounds (leap : Bool) : ∀ f m r : Nat, r < lenSum leap m f →
    m ≤ (monthScan leap f m r).1 ∧ (monthScan leap f m r).1 ≤ m + f ∧
    1 ≤ (monthScan leap f m r).2 ∧
    (monthScan leap f m r).2 ≤ monthLenB leap (monthScan leap f m r).1 := by
  intro f
  induction f with
  | zero =>
    intro m r h
    rw [lenSum] at h
    rw [monthScan]
    simp
    omega
  | succ f ih =>
    intro m r h
    rw [lenSum] at h
    rw [monthScan]
    by_cases hr : r < monthLenB leap m
    · rw [if_pos hr]
      simp
      omega
    · rw [if_neg hr]
      have hrec := ih (m + 1) (r - monthLenB leap m) (by omega)
      exact ⟨by omega, by omega, hrec.2.2.1, hrec.2.2.2⟩

lemma yearLengthY_eq_lenSum (y : Nat) : yearLengthY y = lenSum (isLeapY y) 1 11 := by
  rw [yearLengthY]
  cases h : isLeapY y <;> simp [h] <;> rfl

lemma removeTags_cons_nomatch {c : Char} {l : List Char}
    (h : tagMatch (c :: l) = none) : removeTags (c :: l) = c :: removeTags l := by
  rw [removeTags]
  simp only [List.length_cons]
  simp only [removeTagsF, h]
  rw [removeTags]

lemma removeTags_no_lt (l : List Char) (h : ∀ x ∈ l, x ≠ '<') :
    removeTags l = l :=
  removeTagsF_no_lt l h l.length (le_refl _)

lemma collapseBr_no_b {b rep : Char} (l : List Char) (h : ∀ x ∈ l, x ≠ b) :
    collapseBr b rep l = l :=
  collapseBrF_no_b l h l.length (le_refl _)

lemma collapseWs_no (l : List Char) (h : ∀ x ∈ l, isSpace x = false) :
    collapseWs l = l :=
  collapseWsF_no_ws l h l.length (le_refl _)

lemma collapseBr_single {b rep : Char} : ∀ l1 : List Char, (∀ x ∈ l1, x ≠ b) →
    collapseBr b rep (l1 ++ [b]) = l1 ++ [rep] := by
  intro l1
  induction l1 with
  | nil =>
    intro _
    rw [List.nil_append, List.nil_append]
    show collapseBrF b rep 1 [b] = [rep]
    rw [collapseBrF]
    rw [if_pos rfl]
    rfl
  | cons c t ih =>
    intro hx
    rw [List.cons_append, List.cons_append]
    show collapseBrF b rep ((t ++ [b]).length + 1) (c :: (t ++ [b])) = c :: (t ++ [rep])
    rw [collapseBrF]
    rw [if_neg (hx c (by simp))]
    rw [show collapseBrF b rep (t ++ [b]).length (t ++ [b]) = collapseBr b rep (t ++ [b]) from rfl]
    rw [ih (fun x hm => hx x (by simp [hm]))]

/-- C9 (implicit): for every input, the output of strip_tags contains no
opening and no closing angle bracket: after tag removal every surviving
bracket is replaced by a guillemet, so the output can never be
reinterpreted as markup. -/
theorem strip_tags_no_brackets (v : Option String) :
    '<' ∉ (strip_tags v).data ∧ '>' ∉ (strip_tags v).data := by
  cases v with
  | none =>
    constructor <;> intro h <;> simp [strip_tags] at h
  | some s =>
    have hlt : '<' ∉ collapseBr '<' '«' (removeTags s.data) :=
      collapseBrF_b_not_mem _ (by decide)
    have hgt : '>' ∉ collapseBr '>' '»' (collapseBr '<' '«' (removeTags s.data)) :=
      collapseBrF_b_not_mem _ (by decide)
    have hlt2 : '<' ∉ collapseBr '>' '»' (collapseBr '<' '«' (removeTags s.data)) := by
      intro hmem
      rcases collapseBrF_mem _ _ hmem with h | h
      · exact absurd h (by decide)
      · exact hlt h
    constructor
    · show '<' ∉ trimList (collapseWs (collapseBr '>' '»'
        (collapseBr '<' '«' (removeTags s.data))))
      intro hmem
      have h1 := trimList_mem _ hmem
      rcases collapseWsF_mem _ _ h1 with h | h
      · exact absurd h (by decide)
      · exact hlt2 h
    · show '>' ∉ trimList (collapseWs (collapseBr '>' '»'
        (collapseBr '<' '«' (removeTags s.data))))
      intro hmem
      have h1 := trimList_mem _ hmem
      rcases collapseWsF_mem _ _ h1 with h | h
      · exact absurd h (by decide)
      · exact hgt h

/-- C3 (explicit): strip_markup on absent input is the empty string; a
well-formed tag (opening bracket, optional slash, a letter, non-closing
body, closing bracket) is removed entirely; a character that does not open
a tag is preserved by tag removal; the pipeline then collapses whitespace
and trims, and on the reference input yields "Hello World!". -/
theorem strip_tags_spec :
    strip_tags none = "" ∧
    (∀ s : String, strip_tags (some s) =
      String.mk (trimList (collapseWs (collapseBr '>' '»'
        (collapseBr '<' '«' (removeTags s.data)))))) ∧
    (∀ (sl : List Char) (c : Char) (body rest : List Char),
      sl = [] ∨ sl = ['/'] → isAsciiLetter c = true → (∀ x ∈ body, x ≠ '>') →
      removeTags ('<' :: (sl ++ c :: (body ++ '>' :: rest))) = removeTags rest) ∧
    (∀ (c : Char) (l : List Char), c ≠ '<' →
      removeTags (c :: l) = c :: removeTags l) ∧
    strip_tags (some "<h1>Hello</h1> <p>World!</p>") = "Hello World!" := by
  refine ⟨rfl, fun s => rfl, ?_, ?_, by decide⟩
  · intro sl c body rest h1 h2 h3
    exact removeTags_tag h1 h2 h3
  · intro c l h
    exact removeTags_cons_ne l h

theorem strip_tags_spec_witness :
    (([] : List Char) = [] ∨ ([] : List Char) = ['/']) ∧
    isAsciiLetter 'p' = true ∧ (∀ x ∈ ['x'], x ≠ '>') ∧
    removeTags ('<' :: ([] ++ 'p' :: (['x'] ++ '>' :: ['y']))) = removeTags ['y'] :=
  ⟨Or.inl rfl, by decide, by decide,
    strip_tags_spec.2.2.1 [] 'p' ['x'] ['y'] (Or.inl rfl) (by decide) (by decide)⟩

/-- C4 (explicit): tag removal runs before bracket collapsing; afterwards
every run of consecutive opening brackets (whitespace permitted between
them) collapses to one opening guillemet, every run of closing brackets to
one closing guillemet, the two collapses independent; the reference input
yields the expected text. -/
theorem strip_tags_collapse_order :
    (∀ s : String, strip_tags (some s) =
      String.mk (trimList (collapseWs (collapseBr '>' '»'
        (collapseBr '<' '«' (removeTags s.data)))))) ∧
    (∀ mid rest : List Char, BrRunP '<' mid → afterWsBr '<' rest = none →
      collapseBr '<' '«' ('<' :: (mid ++ rest)) = '«' :: collapseBr '<' '«' rest) ∧
    (∀ mid rest : List Char, BrRunP '>' mid → afterWsBr '>' rest = none →
      collapseBr '>' '»' ('>' :: (mid ++ rest)) = '»' :: collapseBr '>' '»' rest) ∧
    strip_tags (some "Some numbers <text>   < and > letters.") =
      "Some numbers « and » letters." := by
  refine ⟨fun s => rfl, ?_, ?_, by decide⟩
  · intro mid rest h1 h2
    exact collapseBr_run (by decide) h1 h2
  · intro mid rest h1 h2
    exact collapseBr_run (by decide) h1 h2

theorem strip_tags_collapse_order_witness :
    BrRunP '<' [' ', '<'] ∧ afterWsBr '<' ['a'] = none ∧
    collapseBr '<' '«' ('<' :: ([' ', '<'] ++ ['a'])) = '«' :: collapseBr '<' '«' ['a'] := by
  have hrun : BrRunP '<' [' ', '<'] := BrRunP.grp [' '] [] (by decide) BrRunP.nil
  exact ⟨hrun, by decide, strip_tags_collapse_order.2.1 [' ', '<'] ['a'] hrun (by decide)⟩

/-- C8 (explicit): a bracketed token whose interior does not start with a
letter (nor a slash followed by a letter) is not removed as a tag; its
brackets fall through to bracket collapsing, becoming guillemets around the
preserved interior. -/
theorem strip_tags_non_tag_token (inner : List Char) (hne : inner ≠ [])
    (hchars : ∀ c ∈ inner, c ≠ '<' ∧ c ≠ '>' ∧ isSpace c = false)
    (hstart : notTagStartB inner = true) :
    strip_tags (some (String.mk ('<' :: inner ++ ['>']))) =
      String.mk ('«' :: inner ++ ['»']) := by
  cases inner with
  | nil => exact absurd rfl hne
  | cons c t =>
    have hc := hchars c (by simp)
    have hTag : tagMatch ('<' :: ((c :: t) ++ ['>'])) = none := by
      rw [tagMatch]
      rw [if_pos rfl]
      by_cases hcs : c = '/'
      · subst hcs
        rw [List.cons_append, slashSkip]
        rw [if_pos rfl]
        cases t with
        | nil => rfl
        | cons d t2 =>
          rw [List.cons_append]
          show (if isAsciiLetter d = true then dropToGt (t2 ++ ['>']) else none) = none
          have hd : isAsciiLetter d = false := by
            have hs := hstart
            replace hs : (!isAsciiLetter d) = true := hs
            simpa using hs
          rw [if_neg (by simp [hd])]
      · rw [List.cons_append, slashSkip]
        rw [if_neg hcs]
        show (if isAsciiLetter c = true then dropToGt (t ++ ['>']) else none) = none
        have hcl : isAsciiLetter c = false := by
          have hs := hstart
          cases t with
          | nil =>
            replace hs : (if c = '/' then true else !isAsciiLetter c) = true := hs
            rw [if_neg hcs] at hs
            simpa using hs
          | cons d t2 =>
            replace hs : (if c = '/' then !isAsciiLetter d else !isAsciiLetter c) = true := hs
            rw [if_neg hcs] at hs
            simpa using hs
        rw [if_neg (by simp [hcl])]
    have hother : ∀ x ∈ (c :: t) ++ ['>'], x ≠ '<' := by
      intro x hx
      rcases List.mem_append.mp hx with h | h
      · exact (hchars x h).1
      · simp at h
        subst h
        decide
    have h1 : removeTags ('<' :: ((c :: t) ++ ['>'])) = '<' :: ((c :: t) ++ ['>']) := by
      rw [removeTags_cons_nomatch hTag, removeTags_no_lt _ hother]
    have hstop : afterWsBr '<' ((c :: t) ++ ['>']) = none := by
      rw [List.cons_append]
      exact afterWsBr_stop _ hc.1 hc.2.2
    have h2 : collapseBr '<' '«' ('<' :: ((c :: t) ++ ['>'])) =
        '«' :: ((c :: t) ++ ['>']) := by
      have hrun := @collapseBr_run '<' '«' (by decide) [] BrRunP.nil ((c :: t) ++ ['>']) hstop
      rw [List.nil_append] at hrun
      rw [hrun, collapseBr_no_b _ hother]
    have h3 : collapseBr '>' '»' ('«' :: ((c :: t) ++ ['>'])) =
        '«' :: ((c :: t) ++ ['»']) := by
      have hshape : '«' :: ((c :: t) ++ ['>']) = ('«' :: (c :: t)) ++ ['>'] := by simp
      have hshape2 : '«' :: ((c :: t) ++ ['»']) = ('«' :: (c :: t)) ++ ['»'] := by simp
      rw [hshape, hshape2]
      apply collapseBr_single
      intro x hx
      rcases List.mem_cons.mp hx with h | h
      · subst h
        decide
      · exact (hchars x h).2.1
    have hnws : ∀ x ∈ '«' :: ((c :: t) ++ ['»']), isSpace x = false := by
      intro x hx
      rcases List.mem_cons.mp hx with h | h
      · subst h
        decide
      · rcases List.mem_append.mp h with h2 | h2
        · exact (hchars x h2).2.2
        · simp at h2
          subst h2
          decide
    show String.mk (stripTagsList ('<' :: ((c :: t) ++ ['>']))) =
      String.mk ('«' :: ((c :: t) ++ ['»']))
    rw [stripTagsList, h1, h2, h3, collapseWs_no _ hnws, trimList_no_ws hnws]

theorem strip_tags_non_tag_token_witness :
    (['3'] : List Char) ≠ [] ∧
    strip_tags (some (String.mk ('<' :: ['3'] ++ ['>']))) = String.mk ('«' :: ['3'] ++ ['»']) :=
  ⟨by decide, strip_tags_non_tag_token ['3'] (by decide) (by decide) (by decide)⟩

/-- C5 (explicit): the disposal and recovery recognizers trim the input,
match the whole trimmed string case-insensitively against the letter D
(resp. R) followed by one or two digits, optionally a dot and one or two
more digits, and on a match return the matched text with its first
character uppercased, otherwise absence; including the two reference
inputs. -/
theorem parse_disposal_recovery_spec :
    (∀ s r : String, parse_disposal_code s = some r ↔
      ∃ c rest, trimList s.data = c :: rest ∧ (c = 'D' ∨ c = 'd') ∧ TailGrammar rest ∧
        r = String.mk (upperChar c :: rest)) ∧
    (∀ s r : String, parse_recovery_code s = some r ↔
      ∃ c rest, trimList s.data = c :: rest ∧ (c = 'R' ∨ c = 'r') ∧ TailGrammar rest ∧
        r = String.mk (upperChar c :: rest)) ∧
    parse_disposal_code "  d10   " = some "D10" ∧
    parse_disposal_code "  d10.2143434   " = none := by
  refine ⟨?_, ?_, by decide, by decide⟩
  · intro s r
    cases h : trimList s.data with
    | nil =>
      have hmatch : parse_disposal_code s = none := by
        simp only [parse_disposal_code]
        rw [h]
      rw [hmatch]
      constructor
      · intro heq
        exact absurd heq (by simp)
      · rintro ⟨c2, rest2, heq2, -⟩
        exact absurd heq2 (by simp)
    | cons c rest =>
      have hmatch : parse_disposal_code s =
          (if (c == 'D' || c == 'd') && codeTail rest
           then some (String.mk (upperChar c :: rest)) else none) := by
        simp only [parse_disposal_code]
        rw [h]
      rw [hmatch]
      by_cases hcond : ((c == 'D' || c == 'd') && codeTail rest) = true
      · rw [if_pos hcond]
        rw [Bool.and_eq_true, Bool.or_eq_true, beq_iff_eq, beq_iff_eq] at hcond
        constructor
        · intro heq
          injection heq with e
          exact ⟨c, rest, rfl, hcond.1, (codeTail_iff rest).mp hcond.2, e.symm⟩
        · rintro ⟨c2, rest2, heq2, -, -, hr2⟩
          injection heq2 with e1 e2
          subst e1
          subst e2
          rw [hr2]
      · rw [if_neg hcond]
        constructor
        · intro heq
          exact absurd heq (by simp)
        · rintro ⟨c2, rest2, heq2, hc2, hg2, -⟩
          injection heq2 with e1 e2
          subst e1
          subst e2
          exfalso
          apply hcond
          rw [Bool.and_eq_true, Bool.or_eq_true, beq_iff_eq, beq_iff_eq]
          exact ⟨hc2, (codeTail_iff rest).mpr hg2⟩
  · intro s r
    cases h : trimList s.data with
    | nil =>
      have hmatch : parse_recovery_code s = none := by
        simp only [parse_recovery_code]
        rw [h]
      rw [hmatch]
      constructor
      · intro heq
        exact absurd heq (by simp)
      · rintro ⟨c2, rest2, heq2, -⟩
        exact absurd heq2 (by simp)
    | cons c rest =>
      have hmatch : parse_recovery_code s =
          (if (c == 'R' || c == 'r') && codeTail rest
           then some (String.mk (upperChar c :: rest)) else none) := by
        simp only [parse_recovery_code]
        rw [h]
      rw [hmatch]
      by_cases hcond : ((c == 'R' || c == 'r') && codeTail rest) = true
      · rw [if_pos hcond]
        rw [Bool.and_eq_true, Bool.or_eq_true, beq_iff_eq, beq_iff_eq] at hcond
        constructor
        · intro heq
          injection heq with e
          exact ⟨c, rest, rfl, hcond.1, (codeTail_iff rest).mp hcond.2, e.symm⟩
        · rintro ⟨c2, rest2, heq2, -, -, hr2⟩
          injection heq2 with e1 e2
          subst e1
          subst e2
          rw [hr2]
      · rw [if_neg hcond]
        constructor
        · intro heq
          exact absurd heq (by simp)
        · rintro ⟨c2, rest2, heq2, hc2, hg2, -⟩
          injection heq2 with e1 e2
          subst e1
          subst e2
          exfalso
          apply hcond
          rw [Bool.and_eq_true, Bool.or_eq_true, beq_iff_eq, beq_iff_eq]
          exact ⟨hc2, (codeTail_iff rest).mpr hg2⟩

/-- C6 (explicit): the list-of-waste recognizer deletes every character
except digits and the star, returns absence on an empty residue, returns
the residue verbatim when it is exactly 2, 4 or 6 digits or 6 digits and a
star, and absence for any other residue; including the two reference
inputs. -/
theorem parse_low_code_spec :
    (∀ s r : String, parse_low_code s = some r ↔
      lowFilter s.data ≠ [] ∧ LowGrammar (lowFilter s.data) ∧
        r = String.mk (lowFilter s.data)) ∧
    (∀ s : String, parse_low_code s = none ↔
      lowFilter s.data = [] ∨ ¬LowGrammar (lowFilter s.data)) ∧
    parse_low_code "  10 20    30  * " = some "102030*" ∧
    parse_low_code "  10   * " = none := by
  have hbase : ∀ s : String, parse_low_code s =
      (if lowFilter s.data = [] then none
       else if lowForm (lowFilter s.data) then some (String.mk (lowFilter s.data))
       else none) := fun s => rfl
  refine ⟨?_, ?_, by decide, by decide⟩
  · intro s r
    rw [hbase]
    by_cases h1 : lowFilter s.data = []
    · rw [if_pos h1]
      constructor
      · intro heq
        exact absurd heq (by simp)
      · rintro ⟨hne, -⟩
        exact absurd h1 hne
    · rw [if_neg h1]
      by_cases h2 : lowForm (lowFilter s.data) = true
      · rw [if_pos h2]
        constructor
        · intro heq
          injection heq with e
          exact ⟨h1, (lowForm_iff _).mp h2, e.symm⟩
        · rintro ⟨-, -, hr⟩
          rw [hr]
      · rw [if_neg h2]
        constructor
        · intro heq
          exact absurd heq (by simp)
        · rintro ⟨-, hg, -⟩
          exact absurd ((lowForm_iff _).mpr hg) h2
  · intro s
    rw [hbase]
    by_cases h1 : lowFilter s.data = []
    · rw [if_pos h1]
      simp [h1]
    · rw [if_neg h1]
      by_cases h2 : lowForm (lowFilter s.data) = true
      · rw [if_pos h2]
        constructor
        · intro heq
          exact absurd heq (by simp)
        · rintro (hc | hc)
          · exact absurd hc h1
          · exact absurd ((lowForm_iff _).mp h2) hc
      · rw [if_neg h2]
        constructor
        · intro _
          right
          intro hg
          exact h2 ((lowForm_iff _).mpr hg)
        · intro _
          rfl

/-- C7 (explicit): the family dispatcher matches the family name
case-insensitively against the three family tokens and applies the
corresponding recognizer; empty text, an empty family name or an unknown
family name yield absence; including the reference inputs. -/
theorem parse_env_code_spec :
    (∀ v ct : String,
      (v = "" ∨ ct = "" ∨
        (toLowerStr ct ≠ "disposalcode" ∧ toLowerStr ct ≠ "recoverycode" ∧
          toLowerStr ct ≠ "lowcode")) → parse_env_code v ct = none) ∧
    (∀ v ct : String, v ≠ "" → toLowerStr ct = "disposalcode" →
      parse_env_code v ct = parse_disposal_code v) ∧
    (∀ v ct : String, v ≠ "" → toLowerStr ct = "recoverycode" →
      parse_env_code v ct = parse_recovery_code v) ∧
    (∀ v ct : String, v ≠ "" → toLowerStr ct = "lowcode" →
      parse_env_code v ct = parse_low_code v) ∧
    parse_env_code " bla" "loWCode" = none ∧
    parse_env_code "  10 20    30  * " "loWCode" = some "102030*" := by
  refine ⟨?_, ?_, ?_, ?_, by decide, by decide⟩
  · intro v ct h
    simp only [parse_env_code]
    rcases h with h | h | ⟨h1, h2, h3⟩
    · rw [if_pos (Or.inr h)]
    · rw [if_pos (Or.inl h)]
    · by_cases hvct : ct = "" ∨ v = ""
      · rw [if_pos hvct]
      · rw [if_neg hvct, if_neg h1, if_neg h2, if_neg h3]
  · intro v ct hv hct
    simp only [parse_env_code]
    have hct0 : ct ≠ "" := by
      intro e
      rw [e] at hct
      exact absurd hct (by decide)
    rw [if_neg (by rintro (e | e) <;> [exact hct0 e; exact hv e])]
    rw [if_pos hct]
  · intro v ct hv hct
    simp only [parse_env_code]
    have hct0 : ct ≠ "" := by
      intro e
      rw [e] at hct
      exact absurd hct (by decide)
    rw [if_neg (by rintro (e | e) <;> [exact hct0 e; exact hv e])]
    rw [if_neg (by rw [hct]; decide)]
    rw [if_pos hct]
  · intro v ct hv hct
    simp only [parse_env_code]
    have hct0 : ct ≠ "" := by
      intro e
      rw [e] at hct
      exact absurd hct (by decide)
    rw [if_neg (by rintro (e | e) <;> [exact hct0 e; exact hv e])]
    rw [if_neg (by rw [hct]; decide)]
    rw [if_neg (by rw [hct]; decide)]
    rw [if_pos hct]

theorem parse_env_code_spec_witness :
    (" bla" : String) ≠ "" ∧ toLowerStr "loWCode" = "lowcode" ∧
    parse_env_code " bla" "loWCode" = parse_low_code " bla" :=
  ⟨by decide, by decide,
    parse_env_code_spec.2.2.2.1 " bla" "loWCode" (by decide) (by decide)⟩

/-- C1 (explicit): uuid_to_ts returns absence exactly on the union of the
three rejection paths (wrong version nibble, decoded seconds out of range,
calendar construction failure); the three paths are pairwise disjoint and
all collapse to the same indistinguishable absent result; as a total
function of the 16 bytes it can never fail in any other way. -/
theorem uuid_to_ts_rejection_paths : ∀ b : Bytes16,
    (uuid_to_ts b = none ↔ pathWrongVersion b ∨ pathOutOfRange b ∨ pathBuildFail b) ∧
    ¬(pathWrongVersion b ∧ pathOutOfRange b) ∧
    ¬(pathWrongVersion b ∧ pathBuildFail b) ∧
    ¬(pathOutOfRange b ∧ pathBuildFail b) := by
  intro b
  refine ⟨?_, ?_, ?_, ?_⟩
  · by_cases hv : versionOf b = 7
    · by_cases hr : secsOutOfRange b
      · have heq : uuid_to_ts b = none := by
          simp only [uuid_to_ts]
          rw [if_neg (by simp [hv])]
          rw [if_pos hr]
        rw [heq]
        constructor
        · intro _
          exact Or.inr (Or.inl ⟨hv, hr⟩)
        · intro _
          rfl
      · cases hch : chronoFromTimestamp (secsOf b) (nanosOf b) with
        | none =>
          have heq : uuid_to_ts b = none := by
            simp only [uuid_to_ts]
            rw [if_neg (by simp [hv])]
            rw [if_neg hr]
            rw [hch]
          rw [heq]
          constructor
          · intro _
            exact Or.inr (Or.inr ⟨hv, hr, Or.inl hch⟩)
          · intro _
            rfl
        | some dt =>
          cases hts : timestampNew dt.year dt.month dt.day dt.hour dt.minute
              (dt.second * 1000000000 + dt.subsecNanos) with
          | none =>
            have heq : uuid_to_ts b = none := by
              simp only [uuid_to_ts]
              rw [if_neg (by simp [hv])]
              rw [if_neg hr]
              rw [hch]
              exact hts
            rw [heq]
            constructor
            · intro _
              exact Or.inr (Or.inr ⟨hv, hr, Or.inr ⟨dt, hch, hts⟩⟩)
            · intro _
              rfl
          | some tval =>
            have heq : uuid_to_ts b = some tval := by
              simp only [uuid_to_ts]
              rw [if_neg (by simp [hv])]
              rw [if_neg hr]
              rw [hch]
              exact hts
            rw [heq]
            constructor
            · intro hcon
              exact absurd hcon (by simp)
            · rintro (h1 | h2 | h3)
              · exact absurd hv h1
              · exact absurd h2.2 hr
              · rcases h3 with ⟨-, -, hfail | ⟨dt2, hch2, hts2⟩⟩
                · rw [hch] at hfail
                  exact Option.noConfusion hfail
                · rw [hch] at hch2
                  injection hch2 with e
                  subst e
                  rw [hts] at hts2
                  exact Option.noConfusion hts2
    · have heq : uuid_to_ts b = none := by
        simp only [uuid_to_ts]
        rw [if_pos hv]
      rw [heq]
      constructor
      · intro _
        exact Or.inl hv
      · intro _
        rfl
  · rintro ⟨h1, h2, -⟩
    exact h1 h2
  · rintro ⟨h1, h2, -⟩
    exact h1 h2
  · rintro ⟨⟨-, h2⟩, -, h3, -⟩
    exact h3 h2

/-- C10 (implicit): the 48-bit millisecond count is unsigned, so the
decoded seconds are nonnegative for every input; hence the lower-bound
rejection branch of uuid_to_ts is unreachable and the range condition holds
exactly when the decoded seconds exceed the upper bound. -/
theorem uuid_to_ts_seconds_nonneg : ∀ b : Bytes16,
    0 ≤ (secsOf b : Int) ∧
    (secsOutOfRange b ↔ (secsOf b : Int) > 253402300799) := by
  intro b
  have h0 : 0 ≤ (secsOf b : Int) := Int.natCast_nonneg _
  refine ⟨h0, ?_, ?_⟩
  · rintro (h | h)
    · omega
    · exact h
  · intro h
    exact Or.inr h

lemma timestampNew_some (y mo d h mi sN : Nat)
    (hval : 1 ≤ mo ∧ mo ≤ 12 ∧ 1 ≤ d ∧ d ≤ monthLenB (isLeapY y) mo ∧
      h ≤ 23 ∧ mi ≤ 59 ∧ sN < 60000000000) :
    timestampNew y mo d h mi sN = some ⟨y, mo, d, h, mi, sN⟩ := by
  simp only [timestampNew]
  rw [if_pos hval]

/-- C2 (explicit): for every 128-bit value with version nibble 7 whose
48-bit millisecond count yields in-range seconds, uuid_to_ts returns a
timestamp whose year, month, day, hour and minute are exactly the fields of
the UTC calendar conversion of the instant (ms / 1000 seconds,
(ms % 1000) * 1e6 nanoseconds), with the fractional-seconds field within
0.1 second (100000000 nanoseconds) of the expected fractional value. -/
theorem uuid_to_ts_decodes_v7 (b : Bytes16) (hv : versionOf b = 7)
    (hr : secsOf b ≤ 253402300799) :
    ∃ y mo d h mi sec ns : Nat,
      chronoFromTimestamp (secsOf b) (nanosOf b) = some ⟨y, mo, d, h, mi, sec, ns⟩ ∧
      uuid_to_ts b = some ⟨y, mo, d, h, mi, sec * 1000000000 + ns⟩ ∧
      sec * 1000000000 + ns ≤
        (secsOf b % 60) * 1000000000 + (msOf b % 1000) * 1000000 + 100000000 ∧
      (secsOf b % 60) * 1000000000 + (msOf b % 1000) * 1000000 ≤
        sec * 1000000000 + ns + 100000000 := by
  have hn : nanosOf b < 1000000000 := by
    have hm := Nat.mod_lt (msOf b) (show 0 < 1000 by norm_num)
    simp only [nanosOf]
    omega
  have hs8 : secsOf b ≤ 8210266876799 := by omega
  have hch : chronoFromTimestamp (secsOf b) (nanosOf b) =
      some ⟨(civilYD (secsOf b / 86400)).1,
        (monthScan (isLeapY (civilYD (secsOf b / 86400)).1) 11 1
          (civilYD (secsOf b / 86400)).2).1,
        (monthScan (isLeapY (civilYD (secsOf b / 86400)).1) 11 1
          (civilYD (secsOf b / 86400)).2).2,
        secsOf b % 86400 / 3600, secsOf b % 86400 % 3600 / 60, secsOf b % 86400 % 60,
        nanosOf b⟩ := by
    simp only [chronoFromTimestamp]
    rw [if_pos ⟨hn, hs8⟩]
  refine ⟨(civilYD (secsOf b / 86400)).1,
    (monthScan (isLeapY (civilYD (secsOf b / 86400)).1) 11 1
      (civilYD (secsOf b / 86400)).2).1,
    (monthScan (isLeapY (civilYD (secsOf b / 86400)).1) 11 1
      (civilYD (secsOf b / 86400)).2).2,
    secsOf b % 86400 / 3600, secsOf b % 86400 % 3600 / 60, secsOf b % 86400 % 60,
    nanosOf b, hch, ?_, ?_, ?_⟩
  · have hrange : ¬secsOutOfRange b := by
      rintro (h | h)
      · have h0 := Int.natCast_nonneg (secsOf b)
        omega
      · omega
    simp only [uuid_to_ts]
    rw [if_neg (by simp [hv])]
    rw [if_neg hrange]
    rw [hch]
    have hcb : (civilYD (secsOf b / 86400)).2 <
        yearLengthY (civilYD (secsOf b / 86400)).1 :=
      civilRec_bound (secsOf b / 86400) 1970 (secsOf b / 86400) (le_refl _)
    rw [yearLengthY_eq_lenSum] at hcb
    have hmb := monthScan_bounds (isLeapY (civilYD (secsOf b / 86400)).1) 11 1
      (civilYD (secsOf b / 86400)).2 hcb
    have hm12 := hmb.2.1
    show timestampNew (civilYD (secsOf b / 86400)).1
        (monthScan (isLeapY (civilYD (secsOf b / 86400)).1) 11 1
          (civilYD (secsOf b / 86400)).2).1
        (monthScan (isLeapY (civilYD (secsOf b / 86400)).1) 11 1
          (civilYD (secsOf b / 86400)).2).2
        (secsOf b % 86400 / 3600) (secsOf b % 86400 % 3600 / 60)
        (secsOf b % 86400 % 60 * 1000000000 + nanosOf b) =
      some ⟨(civilYD (secsOf b / 86400)).1,
        (monthScan (isLeapY (civilYD (secsOf b / 86400)).1) 11 1
          (civilYD (secsOf b / 86400)).2).1,
        (monthScan (isLeapY (civilYD (secsOf b / 86400)).1) 11 1
          (civilYD (secsOf b / 86400)).2).2,
        secsOf b % 86400 / 3600, secsOf b % 86400 % 3600 / 60,
        secsOf b % 86400 % 60 * 1000000000 + nanosOf b⟩
    exact timestampNew_some _ _ _ _ _ _
      ⟨hmb.1, by omega, hmb.2.2.1, hmb.2.2.2, by omega, by omega, by
        simp only [nanosOf]
        omega⟩
  · simp only [nanosOf]
    omega
  · simp only [nanosOf]
    omega

theorem uuid_to_ts_decodes_v7_witness :
    versionOf testUuidBytes = 7 ∧ secsOf testUuidBytes ≤ 253402300799 ∧
    (∃ y mo d h mi sec ns : Nat,
      chronoFromTimestamp (secsOf testUuidBytes) (nanosOf testUuidBytes) =
        some ⟨y, mo, d, h, mi, sec, ns⟩ ∧
      uuid_to_ts testUuidBytes = some ⟨y, mo, d, h, mi, sec * 1000000000 + ns⟩ ∧
      sec * 1000000000 + ns ≤
        (secsOf testUuidBytes % 60) * 1000000000 +
          (msOf testUuidBytes % 1000) * 1000000 + 100000000 ∧
      (secsOf testUuidBytes % 60) * 1000000000 +
          (msOf testUuidBytes % 1000) * 1000000 ≤
        sec * 1000000000 + ns + 100000000) :=
  ⟨by decide, by decide, uuid_to_ts_decodes_v7 testUuidBytes (by decide) (by decide)⟩

end BFN
